import Mathlib

/-!
Verification of the EmblemVault Agent-Wallet v2 plugin manager and
streaming markdown renderer (src/scripts/emblem-enhanced/src/glow.js).

The JavaScript source is shallowly embedded: JS strings are modelled as
Lean `String`/`List Char` (identical for the ASCII inputs at stake), the
insertion-ordered JS `Map` as an association list with JS `Map.set`
semantics, thrown exceptions as `Except`/`Option`, and the external
collaborators (plugin modules, decrypt, the chat client) as oracles in an
environment record.  `async` code runs on a single-threaded cooperative
event loop, so a sequence of statements with no `await` in between is
atomic; state-passing functions mirror that execution model.
Rendering through the external `glow` binary is modelled as the identity
(the code's own fallback when glow is not installed: `return content`).
-/

/-- JS `Map.get`: first (and in a real `Map`, only) binding of a key. -/
def assocGet (k : String) : List (String × β) → Option β
  | [] => none
  | (k', v) :: t => if k' = k then some v else assocGet k t

/-- JS `Map.set`: replace the value at an existing key in place, else append. -/
def assocSet (k : String) (v : β) : List (String × β) → List (String × β)
  | [] => [(k, v)]
  | (k', v') :: t => if k' = k then (k, v) :: t else (k', v') :: assocSet k v t

/-- JS `Map.delete`: drop the binding of a key. -/
def assocDel (k : String) (l : List (String × β)) : List (String × β) :=
  l.filter (fun p => ¬(p.1 = k))

/-- A JS `Map` can hold at most one binding per key. -/
def keysNodup (l : List (String × β)) : Prop :=
  (l.map Prod.fst).Nodup

instance (l : List (String × β)) : Decidable (keysNodup l) := by
  unfold keysNodup; infer_instance

/-- JS `name.startsWith('_')`, the sentinel-prefix check for internal
bookkeeping entries (char-list form so it evaluates by `decide`). -/
def isSentinelName (s : String) : Bool := "_".data.isPrefixOf s.data

/-- JS `Array.prototype.join(sep)`. -/
def joinSep (sep : String) : List String → String
  | [] => ""
  | [s] => s
  | s :: rest => s ++ sep ++ joinSep sep rest

/-- `sub` occurs contiguously inside `s` (JS `String.includes`). -/
def containsStr (s sub : String) : Prop :=
  ∃ a b : List Char, s.data = a ++ sub.data ++ b

theorem strData_append (a b : String) : (a ++ b).data = a.data ++ b.data := by
  cases a; cases b; rfl

theorem containsStr_self_mid (x y sub : String) :
    containsStr (x ++ sub ++ y) sub := by
  refine ⟨x.data, y.data, ?_⟩
  rw [strData_append, strData_append]

theorem containsStr_of_left (a b sub : String) (h : containsStr a sub) :
    containsStr (a ++ b) sub := by
  obtain ⟨x, y, hx⟩ := h
  exact ⟨x, y ++ b.data, by rw [strData_append, hx]; simp⟩

theorem containsStr_of_right (a b sub : String) (h : containsStr b sub) :
    containsStr (a ++ b) sub := by
  obtain ⟨x, y, hx⟩ := h
  exact ⟨a.data ++ x, y, by rw [strData_append, hx]; simp⟩

theorem containsStr_refl (s : String) : containsStr s s :=
  ⟨[], [], by simp⟩

theorem containsStr_joinSep (sep : String) (l : List String) (x : String)
    (hx : x ∈ l) : containsStr (joinSep sep l) x := by
  induction l with
  | nil => cases hx
  | cons hd t ih =>
    rw [List.mem_cons] at hx
    cases t with
    | nil =>
      rcases hx with hx | hx
      · subst hx; exact containsStr_refl _
      · cases hx
    | cons h2 t2 =>
      rcases hx with hx | hx
      · subst hx
        show containsStr (x ++ sep ++ joinSep sep (h2 :: t2)) x
        exact containsStr_of_left _ _ _ (containsStr_of_left _ _ _ (containsStr_refl _))
      · show containsStr (hd ++ sep ++ joinSep sep (h2 :: t2)) x
        exact containsStr_of_right _ _ _ (ih hx)

/-! ## Streaming render buffer (`GlowStreamBuffer`) -/

/-- JS `\s` character class (ASCII part; the inputs at stake are ASCII). -/
def isSpaceJS (c : Char) : Bool :=
  c = ' ' || c = '\t' || c = '\n' || c = '\r' || c = '\x0b' || c = '\x0c'

/-- JS `String.prototype.trim`. -/
def trimCh (l : List Char) : List Char :=
  ((l.dropWhile isSpaceJS).reverse.dropWhile isSpaceJS).reverse

/-- JS `String.prototype.split('\n')`: the segments between newlines,
including empty ones. -/
def splitLinesCh : List Char → List (List Char)
  | [] => [[]]
  | c :: t =>
    if c = '\n' then [] :: splitLinesCh t
    else
      match splitLinesCh t with
      | [] => [[c]]
      | h :: r => (c :: h) :: r

/-- First index at which `pat` occurs in `s` (JS `String.indexOf`),
`none` for `-1`. -/
def findSub (s pat : List Char) : Option Nat :=
  match s with
  | [] => if pat = [] then some 0 else none
  | _ :: t =>
    if pat.isPrefixOf s then some 0
    else (findSub t pat).map (· + 1)

def fenceTicks : List Char := "```".data
def fenceTildes : List Char := "~~~".data

/-- The fence delimiter opening a line, if any: the regex
`^(` ++ "```" ++ `|~~~)` applied at a line start (backtick alternative
tried first, as in the source). -/
def fenceOf (line : List Char) : Option String :=
  if fenceTicks.isPrefixOf line then some "```"
  else if fenceTildes.isPrefixOf line then some "~~~"
  else none

/-- Fold of `_updateCodeBlockState`'s match loop over the line starts of the
newly appended region: an unmatched fence opens a block remembering its
style; only the same style closes it. -/
def scanFences (inC : Bool) (f : String) : List (List Char) → Bool × String
  | [] => (inC, f)
  | line :: rest =>
    match fenceOf line with
    | none => scanFences inC f rest
    | some fence =>
      if ¬inC then scanFences true fence rest
      else if fence = f then scanFences false "" rest
      else scanFences inC f rest

structure GlowStreamBuffer where
  buffer : List Char
  inCodeBlock : Bool
  codeBlockFence : String
  lastRenderedLength : Nat
deriving Repr, DecidableEq

def GlowStreamBuffer.init : GlowStreamBuffer :=
  { buffer := [], inCodeBlock := false, codeBlockFence := "", lastRenderedLength := 0 }

namespace GlowStreamBuffer

/-- `_updateCodeBlockState`: scan only the content appended since the last
scan for fence markers and update the open-fence state. -/
def updateCodeBlockState (s : GlowStreamBuffer) : GlowStreamBuffer :=
  let newContent := s.buffer.drop s.lastRenderedLength
  let st := scanFences s.inCodeBlock s.codeBlockFence (splitLinesCh newContent)
  { s with inCodeBlock := st.1, codeBlockFence := st.2,
           lastRenderedLength := s.buffer.length }

/-- `_isBlockElement`: a trimmed header line (`#` × 1–6 then whitespace) or a
horizontal rule (three or more `-`, `*` or `_` alone on the line). -/
def isBlockElement (line : List Char) : Bool :=
  let trimmed := trimCh line
  let hashes := (trimmed.takeWhile (· = '#')).length
  (1 ≤ hashes && hashes ≤ 6 &&
    (match trimmed.get? hashes with
     | some c => isSpaceJS c
     | none => false)) ||
  (trimmed.length ≥ 3 &&
    (trimmed.all (· = '-') || trimmed.all (· = '*') || trimmed.all (· = '_')))

/-- `_findBreakpoint`: paragraph break first, then a trailing complete
block-element line; `none` for `-1`. -/
def findBreakpoint (buf : List Char) : Option Nat :=
  match findSub buf "\n\n".data with
  | some i => some (i + 2)
  | none =>
    if buf.getLast? = some '\n' ∧ buf.length > 1 then
      let lines := splitLinesCh buf
      if lines.length ≥ 2 then
        if isBlockElement (lines.getD (lines.length - 2) []) then some buf.length
        else none
      else none
    else none

/-- `_tryFlush`: update fence state, refuse to flush inside an open fence,
otherwise flush through the breakpoint.  Rendering is the identity (glow
not installed: `return content`). -/
def tryFlush (s : GlowStreamBuffer) : Option (List Char) × GlowStreamBuffer :=
  let s1 := updateCodeBlockState s
  if s1.inCodeBlock then (none, s1)
  else
    match findBreakpoint s1.buffer with
    | none => (none, s1)
    | some bp =>
      let content := s1.buffer.take bp
      let buf' := s1.buffer.drop bp
      let s2 := { s1 with buffer := buf', lastRenderedLength := buf'.length }
      if content = [] then (none, s2) else (some content, s2)

/-- `push`: append then try to flush. -/
def push (s : GlowStreamBuffer) (text : List Char) :
    Option (List Char) × GlowStreamBuffer :=
  tryFlush { s with buffer := s.buffer ++ text }

def pushStr (s : GlowStreamBuffer) (text : String) :
    Option (List Char) × GlowStreamBuffer :=
  push s text.data

/-- `flush`: force-emit any remaining content and clear all state; `null`
on an empty buffer. -/
def flush (s : GlowStreamBuffer) : Option (List Char) × GlowStreamBuffer :=
  if s.buffer = [] then (none, s) else (some s.buffer, GlowStreamBuffer.init)

/-- Feed a list of chunks one by one through `push`, collecting the
non-null outputs. -/
def runPushes (s : GlowStreamBuffer) :
    List (List Char) → List (List Char) × GlowStreamBuffer
  | [] => ([], s)
  | c :: cs =>
    let r := push s c
    let rest := runPushes r.2 cs
    (r.1.toList ++ rest.1, rest.2)

end GlowStreamBuffer

/-! ## Lemmas about the streaming buffer -/

theorem updateCodeBlockState_buffer (s : GlowStreamBuffer) :
    (GlowStreamBuffer.updateCodeBlockState s).buffer = s.buffer := rfl

theorem optToList_flatten (o : Option (List Char)) : o.toList.flatten = o.getD [] := by
  cases o <;> simp

/-- Mass balance of a single `push`: emitted prefix plus retained buffer is
exactly the old buffer plus the new text. -/
theorem push_mass (s : GlowStreamBuffer) (t : List Char) :
    ((GlowStreamBuffer.push s t).1.getD []) ++ (GlowStreamBuffer.push s t).2.buffer
      = s.buffer ++ t := by
  unfold GlowStreamBuffer.push GlowStreamBuffer.tryFlush
  set s1 := GlowStreamBuffer.updateCodeBlockState { s with buffer := s.buffer ++ t } with hs1
  have hbuf : s1.buffer = s.buffer ++ t := rfl
  by_cases hc : s1.inCodeBlock
  · simp [hc, hbuf]
  · simp only [hc, if_neg, Bool.false_eq_true, if_false]
    cases hbp : GlowStreamBuffer.findBreakpoint s1.buffer with
    | none => simpa using hbuf
    | some bp =>
      by_cases hct : s1.buffer.take bp = []
      · simp [hct, hbp]
        rw [← List.take_append_drop bp s1.buffer, hct] at hbuf
        simpa using hbuf
      · simp only [hbp, hct, if_neg, if_false]
        rw [← hbuf]
        simp only [Option.getD_some]
        exact List.take_append_drop bp s1.buffer

theorem scanFences_cons (b : Bool) (f : String) (line : List Char)
    (rest : List (List Char)) :
    scanFences b f (line :: rest) =
      match fenceOf line with
      | none => scanFences b f rest
      | some fence =>
        if ¬b then scanFences true fence rest
        else if fence = f then scanFences false "" rest
        else scanFences b f rest := rfl

/-- If the fence scan ends open, either it started open or some scanned line
begins with a fence delimiter. -/
theorem scanFences_open (lines : List (List Char)) :
    ∀ b f, (scanFences b f lines).1 = true →
      b = true ∨ ∃ l ∈ lines, fenceOf l ≠ none := by
  induction lines with
  | nil => intro b f h; exact Or.inl h
  | cons line rest ih =>
    intro b f h
    rw [scanFences_cons] at h
    cases hf : fenceOf line with
    | none =>
      rw [hf] at h
      rcases ih b f h with h' | ⟨l, hl, hln⟩
      · exact Or.inl h'
      · exact Or.inr ⟨l, List.mem_cons_of_mem _ hl, hln⟩
    | some fence =>
      exact Or.inr ⟨line, List.mem_cons_self _ _, by rw [hf]; exact fun hx => Option.noConfusion hx⟩

/-- If the fence scan ends closed and started with a coherent state, the
remembered fence delimiter is empty. -/
theorem scanFences_closed (lines : List (List Char)) :
    ∀ b f, (b = false → f = "") → (scanFences b f lines).1 = false →
      (scanFences b f lines).2 = "" := by
  induction lines with
  | nil =>
    intro b f hcoh h
    exact hcoh h
  | cons line rest ih =>
    intro b f hcoh h
    rw [scanFences_cons] at h ⊢
    cases hf : fenceOf line with
    | none =>
      rw [hf] at h
      exact ih b f hcoh h
    | some fence =>
      rw [hf] at h
      by_cases hb : b = true
      · subst hb
        by_cases hfe : fence = f
        · have h' : (scanFences false "" rest).1 = false := by simpa [hfe] using h
          have h2 := ih false "" (fun _ => rfl) h'
          simpa [hfe] using h2
        · have h' : (scanFences true f rest).1 = false := by simpa [hfe] using h
          have h2 := ih true f (fun hx => Bool.noConfusion hx) h'
          simpa [hfe] using h2
      · have hb' : b = false := by simpa using hb
        subst hb'
        have h' : (scanFences true fence rest).1 = false := by simpa using h
        have h2 := ih true fence (fun hx => Bool.noConfusion hx) h'
        simpa using h2

/-- A line beginning with a fence delimiter is nonempty. -/
theorem fenceOf_ne_nil (l : List Char) (h : fenceOf l ≠ none) : l ≠ [] := by
  intro hl
  subst hl
  exact h rfl

theorem splitLinesCh_nil_mem (l : List Char) (hl : l ∈ splitLinesCh []) : l = [] := by
  simp [splitLinesCh] at hl
  exact hl

/-- Coherence invariant on reachable buffer states: an open fence implies a
nonempty buffer, and a closed state remembers no delimiter. -/
def GSBInv (s : GlowStreamBuffer) : Prop :=
  (s.inCodeBlock = true → s.buffer ≠ []) ∧ (s.inCodeBlock = false → s.codeBlockFence = "")

theorem GSBInv_init : GSBInv GlowStreamBuffer.init :=
  ⟨fun h => Bool.noConfusion h, fun _ => rfl⟩

theorem GSBInv_push (s : GlowStreamBuffer) (t : List Char) (hs : GSBInv s) :
    GSBInv (GlowStreamBuffer.push s t).2 := by
  unfold GlowStreamBuffer.push GlowStreamBuffer.tryFlush
  set s0 : GlowStreamBuffer := { s with buffer := s.buffer ++ t } with hs0
  set s1 := GlowStreamBuffer.updateCodeBlockState s0 with hs1
  have hbuf : s1.buffer = s.buffer ++ t := rfl
  have hopen : s1.inCodeBlock = true → s1.buffer ≠ [] := by
    intro hcB
    have := scanFences_open (splitLinesCh (s0.buffer.drop s0.lastRenderedLength))
      s0.inCodeBlock s0.codeBlockFence hcB
    rcases this with h' | ⟨l, hl, hln⟩
    · have : s.buffer ≠ [] := hs.1 h'
      rw [hbuf]
      exact fun hx => this (List.append_eq_nil.mp hx).1
    · have hlne : l ≠ [] := fenceOf_ne_nil l hln
      have hnc : s0.buffer.drop s0.lastRenderedLength ≠ [] := by
        intro hx
        rw [hx] at hl
        exact hlne (splitLinesCh_nil_mem l hl)
      rw [hbuf]
      intro hx
      rw [show s0.buffer = s.buffer ++ t from rfl, hx] at hnc
      simp at hnc
  have hfence : s1.inCodeBlock = false → s1.codeBlockFence = "" := by
    intro hcB
    exact scanFences_closed (splitLinesCh (s0.buffer.drop s0.lastRenderedLength))
      s0.inCodeBlock s0.codeBlockFence (fun hb => hs.2 hb) hcB
  by_cases hc : s1.inCodeBlock
  · simp only [hc, if_pos]
    exact ⟨hopen, hfence⟩
  · simp only [hc, Bool.false_eq_true, if_false]
    cases hbp : GlowStreamBuffer.findBreakpoint s1.buffer with
    | none => exact ⟨hopen, hfence⟩
    | some bp =>
      have hcb : s1.inCodeBlock = false := by simpa using hc
      by_cases hct : s1.buffer.take bp = []
      · simp only [hbp, hct, if_pos]
        exact ⟨fun hx => absurd hx (by simp [hcb]), fun _ => hfence hcb⟩
      · simp only [hbp, hct, if_neg, if_false]
        exact ⟨fun hx => absurd hx (by simp [hcb]), fun _ => hfence hcb⟩

theorem runPushes_mass (chunks : List (List Char)) :
    ∀ s : GlowStreamBuffer,
      ((GlowStreamBuffer.runPushes s chunks).1).flatten
          ++ (GlowStreamBuffer.runPushes s chunks).2.buffer
        = s.buffer ++ chunks.flatten := by
  induction chunks with
  | nil => intro s; simp [GlowStreamBuffer.runPushes]
  | cons c cs ih =>
    intro s
    unfold GlowStreamBuffer.runPushes
    simp only [List.flatten_append, List.flatten_cons]
    rw [List.append_assoc, ih (GlowStreamBuffer.push s c).2, optToList_flatten,
        ← List.append_assoc, push_mass, List.append_assoc]

theorem runPushes_inv (chunks : List (List Char)) :
    ∀ s : GlowStreamBuffer, GSBInv s →
      GSBInv (GlowStreamBuffer.runPushes s chunks).2 := by
  induction chunks with
  | nil => intro s hs; exact hs
  | cons c cs ih =>
    intro s hs
    exact ih _ (GSBInv_push s c hs)

/-! ## Claims about the streaming render buffer -/

/-- Claim C9: pushing "Hello world.\n\nSecond paragraph" into a fresh
`GlowStreamBuffer` emits exactly "Hello world.\n\n" (raw, before any
rendering transformation) and retains exactly "Second paragraph" in the
buffer; and the paragraph-break rule is checked before the single-line
block-element rule: whenever the buffer contains "\n\n", `_findBreakpoint`
returns the paragraph breakpoint. -/
theorem push_paragraph_break_boundary :
    (GlowStreamBuffer.pushStr GlowStreamBuffer.init "Hello world.\n\nSecond paragraph").1
        = some "Hello world.\n\n".data
    ∧ (GlowStreamBuffer.pushStr GlowStreamBuffer.init "Hello world.\n\nSecond paragraph").2.buffer
        = "Second paragraph".data
    ∧ ∀ (buf : List Char) (i : Nat), findSub buf "\n\n".data = some i →
        GlowStreamBuffer.findBreakpoint buf = some (i + 2) := by
  refine ⟨by decide, by decide, ?_⟩
  intro buf i h
  unfold GlowStreamBuffer.findBreakpoint
  rw [h]

/-- Claim C9 witness: a concrete buffer on which both the paragraph-break
rule and the block-element rule apply ("a\n\n# T\n" ends with a complete
header line) — the paragraph breakpoint wins. -/
theorem push_paragraph_break_boundary_witness :
    GlowStreamBuffer.findBreakpoint "a\n\n# T\n".data = some 3 :=
  push_paragraph_break_boundary.2.2 "a\n\n# T\n".data 1 (by decide)

/-- Claim C3 (refutation / code bug): a matched pair of code-fence
delimiters CAN be split across two separately flushed units.  Pushing
"```\na\n\nb\n```\nx" into a fresh buffer makes `_updateCodeBlockState`
see both the opening and closing fence (state ends closed), after which
`_findBreakpoint` flushes at the paragraph break INSIDE the fenced block:
push returns the unit "```\na\n\n" containing only the opening delimiter,
and the closing delimiter is emitted later in a separate unit
("b\n```\nx" remains buffered and is flushed separately). -/
theorem push_splits_matched_fence_pair :
    (GlowStreamBuffer.pushStr GlowStreamBuffer.init "```\na\n\nb\n```\nx").1
        = some "```\na\n\n".data
    ∧ (GlowStreamBuffer.pushStr GlowStreamBuffer.init "```\na\n\nb\n```\nx").2.buffer
        = "b\n```\nx".data
    ∧ (GlowStreamBuffer.flush
        (GlowStreamBuffer.pushStr GlowStreamBuffer.init "```\na\n\nb\n```\nx").2).1
        = some "b\n```\nx".data := by
  exact ⟨by decide, by decide, by decide⟩

/-- Claim C10: streaming is lossless.  For every sequence of chunks pushed
into a fresh buffer and a final `flush`, the concatenation of all non-null
outputs (renders are the identity: glow not installed) is exactly the
concatenation of the pushed text, and the final `flush` leaves the buffer
empty with the fence state cleared. -/
theorem streaming_lossless (chunks : List (List Char)) :
    ((GlowStreamBuffer.runPushes GlowStreamBuffer.init chunks).1
        ++ (GlowStreamBuffer.flush
              (GlowStreamBuffer.runPushes GlowStreamBuffer.init chunks).2).1.toList).flatten
      = chunks.flatten
    ∧ (GlowStreamBuffer.flush
          (GlowStreamBuffer.runPushes GlowStreamBuffer.init chunks).2).2.buffer = []
    ∧ (GlowStreamBuffer.flush
          (GlowStreamBuffer.runPushes GlowStreamBuffer.init chunks).2).2.inCodeBlock = false
    ∧ (GlowStreamBuffer.flush
          (GlowStreamBuffer.runPushes GlowStreamBuffer.init chunks).2).2.codeBlockFence = "" := by
  have hmass := runPushes_mass chunks GlowStreamBuffer.init
  have hinv := runPushes_inv chunks GlowStreamBuffer.init GSBInv_init
  set r := GlowStreamBuffer.runPushes GlowStreamBuffer.init chunks with hr
  by_cases hb : r.2.buffer = []
  · have hflush : GlowStreamBuffer.flush r.2 = (none, r.2) := by
      unfold GlowStreamBuffer.flush
      rw [if_pos hb]
    have hcb : r.2.inCodeBlock = false := by
      by_contra hx
      have : r.2.buffer ≠ [] := hinv.1 (by simpa using hx)
      exact this hb
    refine ⟨?_, ?_, ?_, ?_⟩
    · rw [hflush]
      simp only [Option.toList_none, List.append_nil]
      rw [hb, List.append_nil] at hmass
      simpa using hmass
    · rw [hflush]; exact hb
    · rw [hflush]; exact hcb
    · rw [hflush]; exact hinv.2 hcb
  · have hflush : GlowStreamBuffer.flush r.2 = (some r.2.buffer, GlowStreamBuffer.init) := by
      unfold GlowStreamBuffer.flush
      rw [if_neg hb]
    refine ⟨?_, ?_, ?_, ?_⟩
    · rw [hflush]
      simp only [Option.toList_some, List.flatten_append, List.flatten_cons,
        List.flatten_nil, List.append_nil]
      simpa using hmass
    · rw [hflush]
      rfl
    · rw [hflush]
      rfl
    · rw [hflush]
      rfl

/-! ## Plugin manager data model -/

structure Tool where
  name : String
  description : String
deriving Repr, DecidableEq

/-- A plugin instance.  `tools = none` models a value that is not an array
(the source guards with `Array.isArray`); executors are abstract function
tokens keyed by tool name. -/
structure Plugin where
  name : String
  version : String
  tools : Option (List Tool)
  executors : List (String × Nat)
deriving Repr, DecidableEq

/-- One registration in `this.plugins` (a JS `Map` entry). -/
structure Entry where
  plugin : Plugin
  enabled : Bool
  toolCount : Nat
deriving Repr, DecidableEq

/-- The mutable state owned by the `PluginManager` instance. -/
structure PMState where
  plugins : List (String × Entry)
  resolvedSecrets : List (String × String)
deriving Repr, DecidableEq

/-- A secret declaration exported by a plugin module. -/
structure SecretDecl where
  name : String
  configPath : String
  label : String
deriving Repr, DecidableEq

/-- One entry of `_pluginSpecs`. -/
structure PluginSpec where
  mod : String
  factory : String
  configKey : String
deriving Repr, DecidableEq

/-- A plugin configuration object.  `_setConfigPath` nesting is flattened
to full dot-paths as keys; the non-string injected values (the chat client
reference and the default masq sub-config) get dedicated constructors. -/
inductive ConfigVal
  | str (s : String)
  | client
  | masqDefault
deriving Repr, DecidableEq

def Config := List (String × ConfigVal)
deriving instance Repr, DecidableEq for Config

/-- The observable surface of an imported plugin module: its secret
declarations (`mod.secrets || mod.SECRETS || []`) and its factory, `none`
when `typeof factory !== 'function'`; a factory that throws returns
`Except.error`. -/
structure ModuleEnv where
  secrets : List SecretDecl
  factory : Option (Config → Except Unit Plugin)

/-- A custom plugin definition parsed from `~/.emblemai-plugins.json`
(malformed entries are dropped by the parser, an external concern). -/
structure StoredCustom where
  name : String
  version : String
  tools : List Tool
  executors : List (String × Nat)
  enabled : Bool

/-- The external collaborators, fixed for the process lifetime:
dynamic imports, the chat client adapter, the auth context, and the
decrypt oracle (`decryptRes n` is the outcome of decrypting the stored
ciphertext of secret `n`). -/
structure PMEnv where
  moduleOf : String → Option ModuleEnv
  hasClient : Bool
  useOk : Plugin → Bool
  baseConfig : String → Config
  hasAuth : Bool
  credSecrets : String → Option String
  decryptRes : String → Except Unit String
  cryptoOk : Bool
  pluginSpecs : Option (List PluginSpec)
  godPlugin : Option Plugin
  customStored : List StoredCustom

/-- The hardcoded `_pluginSpecs` list set by `loadAll`. -/
def builtinSpecs : List PluginSpec :=
  [ ⟨"@hustle/plugin-bankr",   "createBankrPlugin",   "bankr"⟩,
    ⟨"@hustle/plugin-a2a",     "createA2APlugin",     "a2a"⟩,
    ⟨"@hustle/plugin-acp",     "createACPPlugin",     "acp"⟩,
    ⟨"@hustle/plugin-elizaos", "createElizaOSPlugin", "elizaos"⟩,
    ⟨"@hustle/plugin-bridge",  "createBridgePlugin",  "bridge"⟩ ]

/-- `Array.isArray(plugin.tools) ? plugin.tools.length : 0`. -/
def toolCountOf (p : Plugin) : Nat :=
  match p.tools with
  | some ts => ts.length
  | none => 0

namespace PluginManager

/-- `register`: no-op on a falsy name; when `enabled`, try to activate via
`client.use`, demoting to disabled if that throws; then `plugins.set`. -/
def register (env : PMEnv) (st : PMState) (plugin : Plugin)
    (enabled : Bool := true) : PMState :=
  if plugin.name = "" then st
  else
    let en := if enabled then env.useOk plugin else false
    { st with plugins :=
        assocSet plugin.name ⟨plugin, en, toolCountOf plugin⟩ st.plugins }

/-- `unregister`: no-op on an unknown name; otherwise best-effort
`client.unuse` (errors swallowed, no manager-state effect) and
`plugins.delete`. -/
def unregister (st : PMState) (name : String) : PMState :=
  match assocGet name st.plugins with
  | none => st
  | some _ => { st with plugins := assocDel name st.plugins }

/-- `enable`: false on unknown name, true if already enabled, otherwise
re-activate via `client.use` (false and unchanged state if it throws). -/
def enable (env : PMEnv) (st : PMState) (name : String) : Bool × PMState :=
  match assocGet name st.plugins with
  | none => (false, st)
  | some e =>
    if e.enabled then (true, st)
    else if env.useOk e.plugin then
      (true, { st with plugins := assocSet name { e with enabled := true } st.plugins })
    else (false, st)

/-- `disable`: false on unknown name, true if already disabled, otherwise
best-effort `client.unuse` and clear the flag. -/
def disable (st : PMState) (name : String) : Bool × PMState :=
  match assocGet name st.plugins with
  | none => (false, st)
  | some e =>
    if ¬e.enabled then (true, st)
    else (true, { st with plugins := assocSet name { e with enabled := false } st.plugins })

/-- A row of `list()`. -/
structure ListEntry where
  name : String
  version : String
  enabled : Bool
  toolCount : Nat
deriving Repr, DecidableEq

/-- One registration as a `list()` row, with the `|| '0.0.0'` version
fallback. -/
def rowOf (p : String × Entry) : ListEntry :=
  ⟨p.1, if p.2.plugin.version = "" then "0.0.0" else p.2.plugin.version,
   p.2.enabled, p.2.toolCount⟩

/-- `list()`: all registrations except sentinel-prefixed bookkeeping names,
in insertion order. -/
def list (st : PMState) : List ListEntry :=
  (st.plugins.filter (fun p => !isSentinelName p.1)).map rowOf

/-- `getTools()`: tools of enabled, non-sentinel plugins with an array
`tools` field, flattened in order. -/
def getTools (st : PMState) : List (String × String × String) :=
  (st.plugins.filter (fun p =>
      !isSentinelName p.1 && p.2.enabled &&
        (match p.2.plugin.tools with | some _ => true | none => false))).flatMap
    (fun p => (p.2.plugin.tools.getD []).map
      (fun t => (t.name, t.description, p.2.plugin.name)))

end PluginManager

namespace PluginManager

/-- The common start of a rebuilt plugin configuration: spread of
`this._config[spec.configKey]`, then `hustleClient` injection when the
client exists and the key is absent, then the ElizaOS default `masq`
sub-config when absent. -/
def buildBaseCfg (env : PMEnv) (spec : PluginSpec) : Config :=
  let c0 := env.baseConfig spec.configKey
  let c1 := if env.hasClient ∧ assocGet "hustleClient" c0 = none
            then assocSet "hustleClient" ConfigVal.client c0 else c0
  if spec.configKey = "elizaos" ∧ assocGet "masq" c1 = none
  then assocSet "masq" ConfigVal.masqDefault c1 else c1

/-- `_setConfigPath` with the nested object flattened to its dot-path. -/
def setConfigPath (cfg : Config) (dotPath : String) (v : ConfigVal) : Config :=
  assocSet dotPath v cfg

/-- The `reloadPluginWithSecret` injection loop: every declared secret that
is already in the resolved cache is written into the config. -/
def injectResolved (cfg : Config) (decls : List SecretDecl)
    (cache : List (String × String)) : Config :=
  decls.foldl (fun c sd =>
    match assocGet sd.name cache with
    | some v => setConfigPath c sd.configPath (ConfigVal.str v)
    | none => c) cfg

/-- The spec loop of `reloadPluginWithSecret`: skip specs whose module
fails to import or does not declare the secret; at the first declaring
spec, build the config, unregister the old plugin, then require the
factory — a missing factory returns false (old registration already gone),
a throwing factory continues the loop (likewise), success registers the
new instance and returns true. -/
def reloadLoop (env : PMEnv) (pluginName secretName : String) :
    List PluginSpec → PMState → Bool × PMState
  | [], st => (false, st)
  | spec :: rest, st =>
    match env.moduleOf spec.mod with
    | none => reloadLoop env pluginName secretName rest st
    | some m =>
      match m.secrets.find? (fun s => s.name = secretName) with
      | none => reloadLoop env pluginName secretName rest st
      | some _ =>
        let cfg := injectResolved (buildBaseCfg env spec) m.secrets st.resolvedSecrets
        let st1 := unregister st pluginName
        match m.factory with
        | none => (false, st1)
        | some f =>
          match f cfg with
          | Except.error _ => reloadLoop env pluginName secretName rest st1
          | Except.ok p => (true, register env st1 p true)

/-- `reloadPluginWithSecret`: false if `loadAll` never ran; otherwise cache
the plaintext first, then walk the specs. -/
def reloadPluginWithSecret (env : PMEnv) (st : PMState)
    (pluginName secretName plaintext : String) : Bool × PMState :=
  match env.pluginSpecs with
  | none => (false, st)
  | some specs =>
    let st1 := { st with resolvedSecrets := assocSet secretName plaintext st.resolvedSecrets }
    reloadLoop env pluginName secretName specs st1

/-- Result of `_lazyResolveSecrets`, with the decrypt calls it made and the
configuration passed to the factory (`none` when the factory was never
reached). -/
structure LazyResult where
  ok : Bool
  st : PMState
  decryptTrace : List String
  cfgUsed : Option Config

/-- The secret loop of `_lazyResolveSecrets`: cached names are injected
without decryption; otherwise, if a ciphertext is stored, decrypt (logging
the call), cache and inject — a decrypt failure aborts the whole procedure
(outer catch) keeping the cache entries already written. -/
def lazyLoop (env : PMEnv) : List SecretDecl → Config → PMState → List String →
    Except (PMState × List String) (Config × PMState × List String)
  | [], cfg, st, tr => Except.ok (cfg, st, tr)
  | sd :: rest, cfg, st, tr =>
    match assocGet sd.name st.resolvedSecrets with
    | some v => lazyLoop env rest (setConfigPath cfg sd.configPath (ConfigVal.str v)) st tr
    | none =>
      match env.credSecrets sd.name with
      | none => lazyLoop env rest cfg st tr
      | some _ =>
        match env.decryptRes sd.name with
        | Except.error _ => Except.error (st, tr ++ [sd.name])
        | Except.ok v =>
          lazyLoop env rest (setConfigPath cfg sd.configPath (ConfigVal.str v))
            { st with resolvedSecrets := assocSet sd.name v st.resolvedSecrets }
            (tr ++ [sd.name])

/-- `_lazyResolveSecrets`: guard on the auth context, build the base
config, import the crypto module, run the secret loop, then unregister the
old plugin, re-import the plugin module, and construct and register the
new instance.  Any throw is caught and reported as false — note that
throws after the `unregister` leave the plugin unregistered. -/
def lazyResolveSecrets (env : PMEnv) (st : PMState) (pluginName : String)
    (spec : PluginSpec) (pendingSecrets : List SecretDecl) : LazyResult :=
  if ¬(env.hasAuth) then ⟨false, st, [], none⟩
  else if ¬env.cryptoOk then ⟨false, st, [], none⟩
  else
    match lazyLoop env pendingSecrets (buildBaseCfg env spec) st [] with
    | Except.error (st', tr) => ⟨false, st', tr, none⟩
    | Except.ok (cfg, st', tr) =>
      let st1 := unregister st' pluginName
      match env.moduleOf spec.mod with
      | none => ⟨false, st1, tr, none⟩
      | some m =>
        match m.factory with
        | none => ⟨false, st1, tr, none⟩
        | some f =>
          match f cfg with
          | Except.error _ => ⟨false, st1, tr, some cfg⟩
          | Except.ok p => ⟨true, register env st1 p true, tr, some cfg⟩

end PluginManager

structure ChatMessage where
  role : String
  content : String
deriving Repr, DecidableEq

namespace PluginManager

/-- The predicate at the head of `getSystemMessage`: enabled, non-sentinel
registration whose `tools` is a non-empty array. -/
def advertised (p : String × Entry) : Bool :=
  !isSentinelName p.1 && p.2.enabled &&
    (match p.2.plugin.tools with
     | some ts => decide (0 < ts.length)
     | none => false)

def enabledWithTools (st : PMState) : List (String × Entry) :=
  st.plugins.filter advertised

/-- One `- name: description` tool line. -/
def toolLineOf (t : Tool) : String :=
  "  - " ++ t.name ++ ": " ++
    (if t.description = "" then "No description" else t.description)

/-- One `## name (vX) — N tools` section with its tool lines. -/
def sectionFor (name : String) (e : Entry) : String :=
  "## " ++ name ++ " (v" ++
    (if e.plugin.version = "" then "0.0.0" else e.plugin.version) ++
    ") — " ++ toString e.toolCount ++ " tools\n" ++
    joinSep "\n" ((e.plugin.tools.getD []).map toolLineOf)

def introLine : String :=
  "You have the following client-side plugins loaded and available. These tools execute locally on the user's machine via the plugin system. You can call them directly by name."

def closingLine : String :=
  "Use these tools proactively when they match the user's request. For example, if the user asks about trading or balances, use the bankr plugin tools. If they ask about agent discovery, use the a2a plugin tools."

def totalLineFor (enabled : List (String × Entry)) : String :=
  "Total: " ++ toString enabled.length ++ " plugins, " ++
    toString (enabled.foldl (fun n p => n + p.2.toolCount) 0) ++
    " client-side tools available."

/-- `getSystemMessage`: null when no enabled non-sentinel plugin has a
non-empty tool array, otherwise the system prompt enumerating them. -/
def getSystemMessage (st : PMState) : Option ChatMessage :=
  let enabled := enabledWithTools st
  if enabled.length = 0 then none
  else
    let sections := enabled.map (fun p => sectionFor p.1 p.2)
    let content := joinSep "\n"
      ([introLine, ""] ++ sections ++ ["", totalLineFor enabled, closingLine])
    some ⟨"system", content⟩

/-! ### The lazy-secret executor wrapper (`_wrapForLazySecrets`)

Each wrapped executor shares one `resolved` flag per plugin.  A call's
prologue — read the flag and, if clear, set it — contains no `await`, so
under the cooperative event loop it is atomic; a non-triggering call has
no suspension point at all before returning, so whole non-triggering calls
are atomic too.  Consequently any interleaving of N concurrent calls is
observationally a sequence of the calls in the order their prologues run,
which the list argument below represents. -/

/-- What a wrapped executor call returns: delegation to the freshly
registered instance's executor (by token) with the original arguments, a
fallback call of the pre-wrap original executor, the error object for a
tool with no original executor, or JS `undefined`. -/
inductive CallRes
  | delegated (execTok : Nat) (args : String)
  | original (execTok : Nat) (args : String)
  | errorObj (tool : String)
  | undef
deriving Repr, DecidableEq

/-- One invocation of the `lazySecretResolver` wrapper for tool `tool`
with arguments `args`: `flag` is the shared `resolved` flag at prologue
time, `origExec` the captured pre-wrap executor for this tool.  Returns
the result, the new flag, the new manager state, the decrypt calls made,
and whether this call started resolution. -/
def lazyCall (env : PMEnv) (pluginName : String) (spec : PluginSpec)
    (pendingSecrets : List SecretDecl) (origExec : Option Nat)
    (tool args : String) (flag : Bool) (st : PMState) :
    CallRes × Bool × PMState × List String × Bool :=
  if ¬flag then
    let r := lazyResolveSecrets env st pluginName spec pendingSecrets
    let fallback : CallRes :=
      match origExec with
      | some tok => CallRes.original tok args
      | none => CallRes.errorObj tool
    if r.ok then
      match assocGet pluginName r.st.plugins with
      | some e =>
        match assocGet tool e.plugin.executors with
        | some tok => (CallRes.delegated tok args, true, r.st, r.decryptTrace, true)
        | none => (fallback, true, r.st, r.decryptTrace, true)
      | none => (fallback, true, r.st, r.decryptTrace, true)
    else (fallback, true, r.st, r.decryptTrace, true)
  else
    match origExec with
    | some tok => (CallRes.original tok args, flag, st, [], false)
    | none => (CallRes.undef, flag, st, [], false)

/-- Run a schedule of wrapped tool calls (tool name and arguments, in
prologue order), threading the shared flag and the manager state;
`oldExec` is the plugin's pre-wrap executor map.  Returns all results, the
final flag and state, and how many calls started resolution. -/
def runLazyCalls (env : PMEnv) (pluginName : String) (spec : PluginSpec)
    (pendingSecrets : List SecretDecl) (oldExec : List (String × Nat)) :
    Bool → PMState → List (String × String) →
      List CallRes × Bool × PMState × Nat
  | flag, st, [] => ([], flag, st, 0)
  | flag, st, (tool, args) :: rest =>
    let r := lazyCall env pluginName spec pendingSecrets
      (assocGet tool oldExec) tool args flag st
    let rec' := runLazyCalls env pluginName spec pendingSecrets oldExec
      r.2.1 r.2.2.1 rest
    (r.1 :: rec'.1, rec'.2.1, rec'.2.2.1,
      (if r.2.2.2.2 then 1 else 0) + rec'.2.2.2)

end PluginManager

namespace PluginManager

/-- The secret partition in `loadAll`: already-resolved names are injected
into the config from the cache; names with a stored ciphertext become
pending; others are dropped. -/
def partitionSecrets (credSecrets : String → Option String)
    (cache : List (String × String)) :
    List SecretDecl → Config → Config × List SecretDecl
  | [], cfg => (cfg, [])
  | sd :: rest, cfg =>
    match assocGet sd.name cache with
    | some v =>
      partitionSecrets credSecrets cache rest
        (setConfigPath cfg sd.configPath (ConfigVal.str v))
    | none =>
      match credSecrets sd.name with
      | some _ =>
        let r := partitionSecrets credSecrets cache rest cfg
        (r.1, sd :: r.2)
      | none => partitionSecrets credSecrets cache rest cfg

/-- Loading of one spec in `loadAll`: import (skip on failure), require the
factory, build the config, partition declared secrets, construct (skip if
the factory throws) and register.  The second component records the
plugins whose executors get wrapped for lazy secrets (`_wrapForLazySecrets`
mutates the instance's executor map; the wrapper behaviour itself is
`lazyCall`). -/
def loadSpec (env : PMEnv) (st : PMState) (spec : PluginSpec) :
    PMState × List (String × List SecretDecl) :=
  match env.moduleOf spec.mod with
  | none => (st, [])
  | some m =>
    match m.factory with
    | none => (st, [])
    | some f =>
      let cfg0 := buildBaseCfg env spec
      let pr :=
        if 0 < m.secrets.length ∧ env.hasAuth then
          partitionSecrets env.credSecrets st.resolvedSecrets m.secrets cfg0
        else (cfg0, [])
      match f pr.1 with
      | Except.error _ => (st, [])
      | Except.ok p =>
        (register env st p true, if pr.2 = [] then [] else [(p.name, pr.2)])

def loadAllSpecs (env : PMEnv) :
    List PluginSpec → PMState → PMState × List (String × List SecretDecl)
  | [], st => (st, [])
  | spec :: rest, st =>
    let r := loadSpec env st spec
    let r2 := loadAllSpecs env rest r.1
    (r2.1, r.2 ++ r2.2)

/-- `loadAll`: walk `builtinSpecs` in order, then register the god-mode
plugin disabled (skipped when its module is unavailable), then restore the
user-persisted custom plugins with their persisted enabled flags
(`stored.enabled !== false`); entries with a falsy name are skipped. -/
def loadAll (env : PMEnv) (st : PMState) :
    PMState × List (String × List SecretDecl) :=
  let r := loadAllSpecs env builtinSpecs st
  let st1 :=
    match env.godPlugin with
    | some g => register env r.1 g false
    | none => r.1
  let st2 := env.customStored.foldl (fun s c =>
    if c.name = "" then s
    else register env s
      ⟨c.name, if c.version = "" then "1.0.0" else c.version,
       some c.tools, c.executors⟩ c.enabled) st1
  (st2, r.2)

end PluginManager

/-! ## Association-list lemmas -/

theorem assocGet_set_self (k : String) (v : β) (m : List (String × β)) :
    assocGet k (assocSet k v m) = some v := by
  induction m with
  | nil => simp [assocSet, assocGet]
  | cons hd t ih =>
    by_cases hk : hd.1 = k
    · simp [assocSet, assocGet, hk]
    · cases hd with
      | mk k' v' =>
        simp only at hk
        simp [assocSet, assocGet, hk, ih]

theorem assocSet_self_of_get (k : String) (v : β) (m : List (String × β))
    (h : assocGet k m = some v) : assocSet k v m = m := by
  induction m with
  | nil => simp [assocGet] at h
  | cons hd t ih =>
    cases hd with
    | mk k' v' =>
      by_cases hk : k' = k
      · subst hk
        simp [assocGet] at h
        simp [assocSet, h]
      · simp [assocGet, hk] at h
        simp [assocSet, hk, ih h]

theorem assocSet_assocSet (k : String) (v v' : β) (m : List (String × β)) :
    assocSet k v (assocSet k v' m) = assocSet k v m := by
  induction m with
  | nil => simp [assocSet]
  | cons hd t ih =>
    cases hd with
    | mk k' w =>
      by_cases hk : k' = k
      · simp [assocSet, hk]
      · simp [assocSet, hk, ih]

theorem filter_eq_nil_of_not_memKeys (k : String) (m : List (String × β))
    (h : k ∉ m.map Prod.fst) : m.filter (fun p => p.1 = k) = [] := by
  induction m with
  | nil => rfl
  | cons hd t ih =>
    simp only [List.map_cons, List.mem_cons] at h
    push_neg at h
    simp [List.filter_cons, Ne.symm h.1, ih h.2]

theorem filter_assocSet_self (k : String) (v : β) (m : List (String × β))
    (hnodup : keysNodup m) :
    (assocSet k v m).filter (fun p => p.1 = k) = [(k, v)] := by
  induction m with
  | nil => simp [assocSet]
  | cons hd t ih =>
    cases hd with
    | mk k' w =>
      unfold keysNodup at hnodup
      simp only [List.map_cons, List.nodup_cons] at hnodup
      by_cases hk : k' = k
      · subst hk
        simp only [assocSet, if_pos rfl]
        simp [List.filter_cons, filter_eq_nil_of_not_memKeys k' t hnodup.1]
      · simp only [assocSet, if_neg hk]
        simp [List.filter_cons, Ne.symm hk, ih hnodup.2, hk]

theorem filter_of_get (k : String) (v : β) (m : List (String × β))
    (hnodup : keysNodup m) (h : assocGet k m = some v) :
    m.filter (fun p => p.1 = k) = [(k, v)] := by
  rw [← assocSet_self_of_get k v m h]
  exact filter_assocSet_self k v m hnodup

theorem keys_assocSet (k : String) (v : β) (m : List (String × β)) :
    (assocSet k v m).map Prod.fst
      = if k ∈ m.map Prod.fst then m.map Prod.fst else m.map Prod.fst ++ [k] := by
  induction m with
  | nil => simp [assocSet]
  | cons hd t ih =>
    cases hd with
    | mk k' w =>
      by_cases hk : k' = k
      · subst hk
        simp [assocSet]
      · simp only [assocSet, if_neg hk, List.map_cons, ih]
        by_cases hm : k ∈ t.map Prod.fst
        · simp [hm, Ne.symm hk]
        · simp [hm, Ne.symm hk]

theorem keysNodup_assocSet (k : String) (v : β) (m : List (String × β))
    (hnodup : keysNodup m) : keysNodup (assocSet k v m) := by
  unfold keysNodup at hnodup ⊢
  rw [keys_assocSet]
  by_cases hm : k ∈ m.map Prod.fst
  · simpa [hm] using hnodup
  · simp [hm, List.nodup_append, hnodup]

theorem keysNodup_assocDel (k : String) (m : List (String × β))
    (hnodup : keysNodup m) : keysNodup (assocDel k m) := by
  unfold keysNodup at hnodup ⊢
  have hsub : (assocDel k m).Sublist m := List.filter_sublist m
  exact List.Nodup.sublist (hsub.map Prod.fst) hnodup

theorem assocGet_eq_none_of_not_mem (k : String) (m : List (String × β))
    (h : k ∉ m.map Prod.fst) : assocGet k m = none := by
  induction m with
  | nil => rfl
  | cons hd t ih =>
    simp only [List.map_cons, List.mem_cons] at h
    push_neg at h
    simp [assocGet, Ne.symm h.1, ih h.2]

theorem mem_assocSet_self (k : String) (v : β) (m : List (String × β)) :
    (k, v) ∈ assocSet k v m := by
  induction m with
  | nil => simp [assocSet]
  | cons hd t ih =>
    cases hd with
    | mk k' w =>
      by_cases hk : k' = k
      · simp [assocSet, hk]
      · simp [assocSet, hk]
        right
        exact ih

theorem containsStr_trans (s m sub : String) (h1 : containsStr s m)
    (h2 : containsStr m sub) : containsStr s sub := by
  obtain ⟨x, y, hx⟩ := h1
  obtain ⟨u, v, hu⟩ := h2
  exact ⟨x ++ u, v ++ y, by rw [hx, hu]; simp⟩

/-- `list()` rows with a given non-sentinel name are the registrations with
that key, rendered as rows. -/
theorem filter_list_rows (l : List (String × Entry)) (n : String)
    (hns : isSentinelName n = false) :
    ((l.filter (fun p => !isSentinelName p.1)).map PluginManager.rowOf).filter
        (fun r => r.name = n)
      = (l.filter (fun p => p.1 = n)).map PluginManager.rowOf := by
  induction l with
  | nil => rfl
  | cons hd t ih =>
    by_cases hs : isSentinelName hd.1 = true
    · have hne : ¬(hd.1 = n) := fun he => by rw [he] at hs; rw [hns] at hs; cases hs
      simp [List.filter_cons, hs, hne, ih]
    · have hs' : isSentinelName hd.1 = false := by simpa using hs
      by_cases he : hd.1 = n
      · simp [List.filter_cons, hs', he, hns, PluginManager.rowOf, ih]
      · simp [List.filter_cons, hs', he, PluginManager.rowOf, ih]

/-! ## Claims C5, C6, C8 -/

/-- Claim C5: the registration map keeps at most one entry per name —
`register` preserves key uniqueness — and after registering two instances
sharing a (usable, non-sentinel) name back to back, `list()` has exactly
one row for that name, carrying the second instance's version and
toolCount. -/
theorem register_twice_single_entry
    (env : PMEnv) (st : PMState) (p1 p2 : Plugin) (e1 e2 : Bool) (n : String)
    (hnodup : keysNodup st.plugins)
    (h1 : p1.name = n) (h2 : p2.name = n) (hne : ¬n = "")
    (hns : isSentinelName n = false) :
    keysNodup (PluginManager.register env
        (PluginManager.register env st p1 e1) p2 e2).plugins
    ∧ (PluginManager.list (PluginManager.register env
          (PluginManager.register env st p1 e1) p2 e2)).filter
        (fun r => r.name = n)
      = [⟨n, if p2.version = "" then "0.0.0" else p2.version,
          if e2 then env.useOk p2 else false, toolCountOf p2⟩] := by
  simp only [PluginManager.register, h1, h2, if_neg hne]
  constructor
  · exact keysNodup_assocSet _ _ _ (keysNodup_assocSet _ _ _ hnodup)
  · unfold PluginManager.list
    rw [filter_list_rows _ n hns, assocSet_assocSet,
        filter_assocSet_self _ _ _ hnodup]
    simp [PluginManager.rowOf]

/-- Claim C5 witness: registering two concrete "bankr" instances leaves one
row with the second instance's version 2.0.0 and two tools. -/
theorem register_twice_single_entry_witness :
    (PluginManager.list (PluginManager.register
        ⟨fun _ => none, false, fun _ => true, fun _ => [], false,
         fun _ => none, fun _ => Except.error (), false, none, none, []⟩
        (PluginManager.register
          ⟨fun _ => none, false, fun _ => true, fun _ => [], false,
           fun _ => none, fun _ => Except.error (), false, none, none, []⟩
          ⟨[], []⟩ ⟨"bankr", "1.0.0", some [⟨"t1", "d1"⟩], []⟩ true)
        ⟨"bankr", "2.0.0", some [⟨"a", "da"⟩, ⟨"b", "db"⟩], []⟩ true)).filter
      (fun r => r.name = "bankr")
    = [⟨"bankr", "2.0.0", true, 2⟩] :=
  (register_twice_single_entry _ ⟨[], []⟩
    ⟨"bankr", "1.0.0", some [⟨"t1", "d1"⟩], []⟩
    ⟨"bankr", "2.0.0", some [⟨"a", "da"⟩, ⟨"b", "db"⟩], []⟩
    true true "bankr" (by decide) rfl rfl (by decide) (by decide)).2

/-- Claim C6: `disable(name)` then `enable(name)` on a registered, enabled
plugin never alters the registration: the entry keeps the same underlying
instance and toolCount for either outcome of re-activation, the `list()`
row keeps the same version and toolCount, and when the chat client accepts
re-activation the manager state is restored exactly. -/
theorem disable_then_enable_preserves
    (env : PMEnv) (st : PMState) (n : String) (e : Entry)
    (hnodup : keysNodup st.plugins)
    (hget : assocGet n st.plugins = some e) (hen : e.enabled = true)
    (hns : isSentinelName n = false) :
    (PluginManager.disable st n).1 = true
    ∧ (env.useOk e.plugin = true →
        PluginManager.enable env (PluginManager.disable st n).2 n = (true, st))
    ∧ ∃ e', assocGet n (PluginManager.enable env
          (PluginManager.disable st n).2 n).2.plugins = some e'
        ∧ e'.plugin = e.plugin ∧ e'.toolCount = e.toolCount
    ∧ ((PluginManager.list (PluginManager.enable env
          (PluginManager.disable st n).2 n).2).filter
        (fun r => r.name = n)).map (fun r => (r.version, r.toolCount))
      = [(if e.plugin.version = "" then "0.0.0" else e.plugin.version,
          e.toolCount)] := by
  have hdis : PluginManager.disable st n
      = (true, { st with plugins := assocSet n ({ e with enabled := false }) st.plugins }) := by
    unfold PluginManager.disable
    rw [hget]
    simp [hen]
  have hget1 : assocGet n (assocSet n ({ e with enabled := false }) st.plugins)
      = some { e with enabled := false } := assocGet_set_self _ _ _
  have hrestore : { e with enabled := true } = e := by
    cases e
    simp only at hen
    simp [hen]
  by_cases huse : env.useOk e.plugin = true
  · have hena : PluginManager.enable env (PluginManager.disable st n).2 n
        = (true, st) := by
      rw [hdis]
      unfold PluginManager.enable
      simp only [hget1]
      simp only [huse, if_true, Bool.false_eq_true, if_false]
      rw [assocSet_assocSet, hrestore, assocSet_self_of_get n e st.plugins hget]
    refine ⟨by rw [hdis], fun _ => hena, e, ?_, rfl, rfl, ?_⟩
    · rw [hena]
      exact hget
    · rw [hena]
      unfold PluginManager.list
      rw [filter_list_rows _ n hns, filter_of_get n e st.plugins hnodup hget]
      simp [PluginManager.rowOf]
  · have huse' : env.useOk e.plugin = false := by simpa using huse
    have hena : PluginManager.enable env (PluginManager.disable st n).2 n
        = (false, (PluginManager.disable st n).2) := by
      rw [hdis]
      unfold PluginManager.enable
      simp only [hget1]
      simp [huse']
    refine ⟨by rw [hdis], fun hx => absurd hx huse, { e with enabled := false },
      ?_, rfl, rfl, ?_⟩
    · rw [hena, hdis]
      exact hget1
    · rw [hena, hdis]
      unfold PluginManager.list
      rw [filter_list_rows _ n hns,
          filter_assocSet_self _ _ _ hnodup]
      simp [PluginManager.rowOf]

/-- Claim C6 witness: a concrete enabled plugin with one tool survives a
disable/enable round trip with its state restored exactly. -/
theorem disable_then_enable_preserves_witness :
    PluginManager.enable
        ⟨fun _ => none, false, fun _ => true, fun _ => [], false,
         fun _ => none, fun _ => Except.error (), false, none, none, []⟩
        (PluginManager.disable
          ⟨[("acp", ⟨⟨"acp", "1.2.0", some [⟨"t", "d"⟩], []⟩, true, 1⟩)], []⟩
          "acp").2 "acp"
      = (true, ⟨[("acp", ⟨⟨"acp", "1.2.0", some [⟨"t", "d"⟩], []⟩, true, 1⟩)], []⟩) :=
  (disable_then_enable_preserves _
    ⟨[("acp", ⟨⟨"acp", "1.2.0", some [⟨"t", "d"⟩], []⟩, true, 1⟩)], []⟩
    "acp" ⟨⟨"acp", "1.2.0", some [⟨"t", "d"⟩], []⟩, true, 1⟩
    (by decide) (by decide) rfl (by decide)).2.1 rfl

/-- Claim C8: a plugin whose activation against the chat client throws is
still recorded in the plugin map, marked disabled, and (for a
non-sentinel name) still surfaces as a disabled row of `list()`. -/
theorem register_activation_failure_tracked
    (env : PMEnv) (st : PMState) (p : Plugin)
    (hname : ¬p.name = "") (hfail : env.useOk p = false) :
    assocGet p.name (PluginManager.register env st p true).plugins
        = some ⟨p, false, toolCountOf p⟩
    ∧ (isSentinelName p.name = false →
        (⟨p.name, if p.version = "" then "0.0.0" else p.version, false,
          toolCountOf p⟩ : PluginManager.ListEntry)
          ∈ PluginManager.list (PluginManager.register env st p true)) := by
  have hreg : PluginManager.register env st p true
      = { st with plugins :=
          assocSet p.name ⟨p, false, toolCountOf p⟩ st.plugins } := by
    unfold PluginManager.register
    rw [if_neg hname]
    simp [hfail]
  constructor
  · rw [hreg]
    exact assocGet_set_self _ _ _
  · intro hns
    rw [hreg]
    unfold PluginManager.list
    have hmem : (p.name, (⟨p, false, toolCountOf p⟩ : Entry))
        ∈ assocSet p.name ⟨p, false, toolCountOf p⟩ st.plugins :=
      mem_assocSet_self _ _ _
    have hmemf : (p.name, (⟨p, false, toolCountOf p⟩ : Entry))
        ∈ (assocSet p.name ⟨p, false, toolCountOf p⟩ st.plugins).filter
            (fun q => !isSentinelName q.1) := by
      rw [List.mem_filter]
      exact ⟨hmem, by simp [hns]⟩
    exact List.mem_map_of_mem PluginManager.rowOf hmemf

/-- Claim C8 witness: a concrete instance rejected by the adapter is still
listed, disabled, with its tool count. -/
theorem register_activation_failure_tracked_witness :
    (⟨"bridge", "0.3.0", false, 1⟩ : PluginManager.ListEntry)
      ∈ PluginManager.list (PluginManager.register
          ⟨fun _ => none, false, fun _ => false, fun _ => [], false,
           fun _ => none, fun _ => Except.error (), false, none, none, []⟩
          ⟨[], []⟩ ⟨"bridge", "0.3.0", some [⟨"b", "d"⟩], []⟩ true) :=
  (register_activation_failure_tracked _ ⟨[], []⟩
    ⟨"bridge", "0.3.0", some [⟨"b", "d"⟩], []⟩
    (by decide) rfl).2 (by decide)

/-! ## Claim C7 -/

theorem advertised_eq_false_iff (p : String × Entry) :
    PluginManager.advertised p = false ↔
      (isSentinelName p.1 = true ∨ p.2.enabled = false ∨
        (p.2.plugin.tools.getD []).length = 0) := by
  unfold PluginManager.advertised
  cases htools : p.2.plugin.tools with
  | none => simp [htools]
  | some ts =>
    cases hs : isSentinelName p.1 <;> cases hen : p.2.enabled <;>
      simp [htools, hs, hen]

theorem getSystemMessage_none_eq (st : PMState)
    (h : (PluginManager.enabledWithTools st).length = 0) :
    PluginManager.getSystemMessage st = none := by
  unfold PluginManager.getSystemMessage
  simp [h]

theorem getSystemMessage_some_eq (st : PMState)
    (h : ¬(PluginManager.enabledWithTools st).length = 0) :
    PluginManager.getSystemMessage st
      = some ⟨"system", joinSep "\n"
          ([PluginManager.introLine, ""]
            ++ (PluginManager.enabledWithTools st).map
                 (fun p => PluginManager.sectionFor p.1 p.2)
            ++ ["", PluginManager.totalLineFor (PluginManager.enabledWithTools st),
                PluginManager.closingLine])⟩ := by
  unfold PluginManager.getSystemMessage
  simp [h]

theorem sectionFor_contains_name (n : String) (e : Entry) :
    containsStr (PluginManager.sectionFor n e) n := by
  unfold PluginManager.sectionFor
  exact containsStr_of_left _ _ _ (containsStr_of_left _ _ _
    (containsStr_of_left _ _ _ (containsStr_of_left _ _ _
      (containsStr_of_left _ _ _ (containsStr_of_left _ _ _
        (containsStr_of_right "## " n n (containsStr_refl n)))))))

theorem toolLineOf_contains_name (t : Tool) :
    containsStr (PluginManager.toolLineOf t) t.name := by
  unfold PluginManager.toolLineOf
  exact containsStr_of_left _ _ _ (containsStr_of_left _ _ _
    (containsStr_of_right "  - " t.name t.name (containsStr_refl t.name)))

theorem sectionFor_contains_toolLine (n : String) (e : Entry) (t : Tool)
    (ht : t ∈ e.plugin.tools.getD []) :
    containsStr (PluginManager.sectionFor n e) (PluginManager.toolLineOf t) := by
  unfold PluginManager.sectionFor
  exact containsStr_of_right _ _ _
    (containsStr_joinSep "\n" _ _
      (List.mem_map_of_mem PluginManager.toolLineOf ht))

/-- Claim C7: `getSystemMessage()` returns null exactly when no enabled
plugin (non-sentinel registration; names starting with `_` are reserved
internal bookkeeping entries that `list()` and the system prompt exclude)
has a non-empty tool array; otherwise it returns a role-`system` message
whose content contains the name of every enabled plugin with tools and all
of their tool names, plus the closing use-them-proactively instruction. -/
theorem getSystemMessage_null_iff_and_contents (st : PMState) :
    (PluginManager.getSystemMessage st = none ↔
      ∀ p ∈ st.plugins, isSentinelName p.1 = true ∨ p.2.enabled = false ∨
        (p.2.plugin.tools.getD []).length = 0)
    ∧ (∀ msg, PluginManager.getSystemMessage st = some msg →
        msg.role = "system"
        ∧ (∀ p ∈ st.plugins, isSentinelName p.1 = false → p.2.enabled = true →
            0 < (p.2.plugin.tools.getD []).length →
              containsStr msg.content p.1
              ∧ ∀ t ∈ p.2.plugin.tools.getD [], containsStr msg.content t.name)
        ∧ containsStr msg.content PluginManager.closingLine) := by
  by_cases hlen : (PluginManager.enabledWithTools st).length = 0
  · have hnone := getSystemMessage_none_eq st hlen
    have hnil : PluginManager.enabledWithTools st = [] :=
      List.length_eq_zero.mp hlen
    constructor
    · rw [hnone]
      constructor
      · intro _ p hp
        have : ¬(PluginManager.advertised p = true) := by
          intro hadv
          have : p ∈ PluginManager.enabledWithTools st := by
            unfold PluginManager.enabledWithTools
            rw [List.mem_filter]
            exact ⟨hp, hadv⟩
          rw [hnil] at this
          cases this
        exact (advertised_eq_false_iff p).mp (by simpa using this)
      · intro _
        rfl
    · intro msg hmsg
      rw [hnone] at hmsg
      cases hmsg
  · have hsome := getSystemMessage_some_eq st hlen
    constructor
    · rw [hsome]
      constructor
      · intro hx
        cases hx
      · intro hall
        exfalso
        apply hlen
        rw [List.length_eq_zero]
        unfold PluginManager.enabledWithTools
        rw [List.filter_eq_nil_iff]
        intro p hp
        have := (advertised_eq_false_iff p).mpr (hall p hp)
        simp [this]
    · intro msg hmsg
      rw [hsome] at hmsg
      injection hmsg with hmsg'
      subst hmsg'
      refine ⟨rfl, ?_, ?_⟩
      · intro p hp hsent hen htools
        have hadv : PluginManager.advertised p = true := by
          unfold PluginManager.advertised
          cases htl : p.2.plugin.tools with
          | none => rw [htl] at htools; simp at htools
          | some ts =>
            rw [htl] at htools
            simp only [Option.getD_some] at htools
            simp [hsent, hen, htools]
        have hmem : p ∈ PluginManager.enabledWithTools st := by
          unfold PluginManager.enabledWithTools
          rw [List.mem_filter]
          exact ⟨hp, hadv⟩
        have hsecmem : PluginManager.sectionFor p.1 p.2
            ∈ [PluginManager.introLine, ""]
              ++ (PluginManager.enabledWithTools st).map
                   (fun q => PluginManager.sectionFor q.1 q.2)
              ++ ["", PluginManager.totalLineFor (PluginManager.enabledWithTools st),
                  PluginManager.closingLine] := by
          refine List.mem_append_left _ (List.mem_append_right _ ?_)
          exact List.mem_map_of_mem _ hmem
        have hseccont : containsStr _ (PluginManager.sectionFor p.1 p.2) :=
          containsStr_joinSep "\n" _ _ hsecmem
        refine ⟨containsStr_trans _ _ _ hseccont (sectionFor_contains_name p.1 p.2), ?_⟩
        intro t ht
        exact containsStr_trans _ _ _
          (containsStr_trans _ _ _ hseccont (sectionFor_contains_toolLine p.1 p.2 t ht))
          (toolLineOf_contains_name t)
      · apply containsStr_joinSep
        simp

/-- Claim C7 witness: a concrete manager with one enabled "bankr" plugin
with one tool "swap" yields a system message containing both names and the
closing instruction. -/
theorem getSystemMessage_null_iff_and_contents_witness :
    ((PluginManager.getSystemMessage
        ⟨[("bankr", ⟨⟨"bankr", "1.0.0", some [⟨"swap", "swap tokens"⟩], []⟩, true, 1⟩)],
         []⟩).getD ⟨"", ""⟩).role = "system"
    ∧ containsStr ((PluginManager.getSystemMessage
        ⟨[("bankr", ⟨⟨"bankr", "1.0.0", some [⟨"swap", "swap tokens"⟩], []⟩, true, 1⟩)],
         []⟩).getD ⟨"", ""⟩).content "bankr"
    ∧ containsStr ((PluginManager.getSystemMessage
        ⟨[("bankr", ⟨⟨"bankr", "1.0.0", some [⟨"swap", "swap tokens"⟩], []⟩, true, 1⟩)],
         []⟩).getD ⟨"", ""⟩).content "swap"
    ∧ containsStr ((PluginManager.getSystemMessage
        ⟨[("bankr", ⟨⟨"bankr", "1.0.0", some [⟨"swap", "swap tokens"⟩], []⟩, true, 1⟩)],
         []⟩).getD ⟨"", ""⟩).content PluginManager.closingLine := by
  have h := (getSystemMessage_null_iff_and_contents
    ⟨[("bankr", ⟨⟨"bankr", "1.0.0", some [⟨"swap", "swap tokens"⟩], []⟩, true, 1⟩)], []⟩).2
    ((PluginManager.getSystemMessage
        ⟨[("bankr", ⟨⟨"bankr", "1.0.0", some [⟨"swap", "swap tokens"⟩], []⟩, true, 1⟩)],
         []⟩).getD ⟨"", ""⟩) rfl
  have hp := h.2.1 ("bankr", ⟨⟨"bankr", "1.0.0", some [⟨"swap", "swap tokens"⟩], []⟩, true, 1⟩)
    (by simp) (by decide) rfl (by decide)
  exact ⟨h.1, hp.1, hp.2 ⟨"swap", "swap tokens"⟩ (by simp), h.2.2⟩

/-! ## Claim C1 -/

/-- Sample module for C1: declares the secret "s" but exports no factory
function. -/
def c1mod : ModuleEnv := ⟨[⟨"s", "api.key", "API key"⟩], none⟩

def c1env : PMEnv :=
  ⟨fun m => if m = "@hustle/plugin-bankr" then some c1mod else none,
   false, fun _ => true, fun _ => [], false, fun _ => none,
   fun _ => Except.error (), false, some builtinSpecs, none, []⟩

def c1st : PMState := ⟨[("p", ⟨⟨"p", "1.0.0", some [], []⟩, true, 0⟩)], []⟩

/-- Claim C1 counterexample: with a spec whose module declares the secret
but whose factory is missing, `reloadPluginWithSecret` returns false AND
the old registration under "p" is gone — the map is not as it was before
the call, refuting the claimed atomicity. -/
theorem reload_factory_missing_loses_registration :
    (PluginManager.reloadPluginWithSecret c1env c1st "p" "s" "v").1 = false
    ∧ assocGet "p"
        (PluginManager.reloadPluginWithSecret c1env c1st "p" "s" "v").2.plugins
      = none
    ∧ assocGet "p" c1st.plugins
      = some ⟨⟨"p", "1.0.0", some [], []⟩, true, 0⟩ := by
  refine ⟨by decide, by decide, by decide⟩

/-- `spec` does not offer the secret: its module fails to import or does
not declare `secretName`. -/
def noDecl (env : PMEnv) (spec : PluginSpec) (secretName : String) : Prop :=
  ∀ m, env.moduleOf spec.mod = some m →
    m.secrets.find? (fun s => s.name = secretName) = none

theorem reloadLoop_cons (env : PMEnv) (pn sn : String) (spec : PluginSpec)
    (rest : List PluginSpec) (st : PMState) :
    PluginManager.reloadLoop env pn sn (spec :: rest) st
      = match env.moduleOf spec.mod with
        | none => PluginManager.reloadLoop env pn sn rest st
        | some m =>
          match m.secrets.find? (fun s => s.name = sn) with
          | none => PluginManager.reloadLoop env pn sn rest st
          | some _ =>
            let cfg := PluginManager.injectResolved
              (PluginManager.buildBaseCfg env spec) m.secrets st.resolvedSecrets
            let st1 := PluginManager.unregister st pn
            match m.factory with
            | none => (false, st1)
            | some f =>
              match f cfg with
              | Except.error _ => PluginManager.reloadLoop env pn sn rest st1
              | Except.ok p => (true, PluginManager.register env st1 p true) := rfl

theorem reloadLoop_skip (env : PMEnv) (pn sn : String) (spec : PluginSpec)
    (rest : List PluginSpec) (st : PMState) (h : noDecl env spec sn) :
    PluginManager.reloadLoop env pn sn (spec :: rest) st
      = PluginManager.reloadLoop env pn sn rest st := by
  cases hm : env.moduleOf spec.mod with
  | none => simp only [reloadLoop_cons, hm]
  | some m => simp only [reloadLoop_cons, hm, h m hm]

theorem reloadLoop_none (env : PMEnv) (pn sn : String) :
    ∀ (specs : List PluginSpec) (st : PMState),
      (∀ spec ∈ specs, noDecl env spec sn) →
      PluginManager.reloadLoop env pn sn specs st = (false, st) := by
  intro specs
  induction specs with
  | nil => intro st _; rfl
  | cons spec rest ih =>
    intro st hall
    rw [reloadLoop_skip env pn sn spec rest st (hall spec (List.mem_cons_self _ _))]
    exact ih st (fun s hs => hall s (List.mem_cons_of_mem _ hs))

theorem reloadLoop_skip_pre (env : PMEnv) (pn sn : String) :
    ∀ (pre tail : List PluginSpec) (st : PMState),
      (∀ s ∈ pre, noDecl env s sn) →
      PluginManager.reloadLoop env pn sn (pre ++ tail) st
        = PluginManager.reloadLoop env pn sn tail st := by
  intro pre
  induction pre with
  | nil => intro tail st _; rfl
  | cons spec rest ih =>
    intro tail st hall
    rw [List.cons_append,
        reloadLoop_skip env pn sn spec (rest ++ tail) st (hall spec (List.mem_cons_self _ _))]
    exact ih tail st (fun s hs => hall s (List.mem_cons_of_mem _ hs))

/-- The state right after `reloadPluginWithSecret` caches the plaintext
(`this._resolvedSecrets[secretName] = plaintext`). -/
def cacheSecret (st : PMState) (sn v : String) : PMState :=
  { st with resolvedSecrets := assocSet sn v st.resolvedSecrets }

/-- Claim C1 amended: the call caches the plaintext and then either
(i) returns false with the registration map exactly as before when no
known spec offers the secret; or, at the first spec whose module declares
it, (ii) returns false with the old registration ALREADY UNREGISTERED when
that module's factory is missing, or (iii) returns true having replaced
the old registration with the newly constructed instance when the factory
succeeds.  (The original claim's "old registration remains intact whenever
false is returned" fails in case (ii) and likewise when every declaring
factory throws.) -/
theorem reloadPluginWithSecret_amended
    (env : PMEnv) (st : PMState) (pn sn v : String) (specs : List PluginSpec)
    (hspecs : env.pluginSpecs = some specs) :
    ((∀ spec ∈ specs, noDecl env spec sn) →
      PluginManager.reloadPluginWithSecret env st pn sn v
        = (false, cacheSecret st sn v))
    ∧ (∀ pre spec rest m d, specs = pre ++ spec :: rest →
        (∀ s ∈ pre, noDecl env s sn) →
        env.moduleOf spec.mod = some m →
        m.secrets.find? (fun s => s.name = sn) = some d →
        (m.factory = none →
            PluginManager.reloadPluginWithSecret env st pn sn v
              = (false, PluginManager.unregister (cacheSecret st sn v) pn))
        ∧ ∀ f p, m.factory = some f →
            f (PluginManager.injectResolved
                (PluginManager.buildBaseCfg env spec) m.secrets
                (assocSet sn v st.resolvedSecrets)) = Except.ok p →
            PluginManager.reloadPluginWithSecret env st pn sn v
              = (true, PluginManager.register env
                  (PluginManager.unregister (cacheSecret st sn v) pn) p true)) := by
  constructor
  · intro hall
    unfold PluginManager.reloadPluginWithSecret
    rw [hspecs]
    exact reloadLoop_none env pn sn specs _ hall
  · intro pre spec rest m d hsplit hpre hm hfind
    have hloop : PluginManager.reloadPluginWithSecret env st pn sn v
        = PluginManager.reloadLoop env pn sn (spec :: rest) (cacheSecret st sn v) := by
      unfold PluginManager.reloadPluginWithSecret
      rw [hspecs, hsplit]
      exact reloadLoop_skip_pre env pn sn pre (spec :: rest) _ hpre
    constructor
    · intro hfac
      rw [hloop]
      simp only [reloadLoop_cons, hm, hfind, hfac]
    · intro f p hfac hok
      rw [hloop]
      simp only [reloadLoop_cons, hm, hfind, hfac]
      simp only [cacheSecret] at hok ⊢
      simp only [hok]

/-- Claim C1 amended witness: with a declaring module whose factory
succeeds, the reload returns true and the new instance is registered in
place of the old one. -/
def c1modOk : ModuleEnv :=
  ⟨[⟨"s", "api.key", "API key"⟩],
   some (fun _ => Except.ok ⟨"p", "2.0.0", some [], []⟩)⟩

def c1envOk : PMEnv :=
  ⟨fun m => if m = "@hustle/plugin-bankr" then some c1modOk else none,
   false, fun _ => true, fun _ => [], false, fun _ => none,
   fun _ => Except.error (), false, some [⟨"@hustle/plugin-bankr", "createBankrPlugin", "bankr"⟩],
   none, []⟩

theorem reloadPluginWithSecret_amended_witness :
    PluginManager.reloadPluginWithSecret c1envOk c1st "p" "s" "v"
      = (true, ⟨[("p", ⟨⟨"p", "2.0.0", some [], []⟩, true, 0⟩)], [("s", "v")]⟩) := by
  have h := (reloadPluginWithSecret_amended c1envOk c1st "p" "s" "v"
      [⟨"@hustle/plugin-bankr", "createBankrPlugin", "bankr"⟩] rfl).2
    [] ⟨"@hustle/plugin-bankr", "createBankrPlugin", "bankr"⟩ []
    c1modOk ⟨"s", "api.key", "API key"⟩ rfl (by intro s hs; cases hs) rfl (by decide)
  have h2 := h.2 (fun _ => Except.ok ⟨"p", "2.0.0", some [], []⟩)
    ⟨"p", "2.0.0", some [], []⟩ rfl rfl
  rw [h2]
  decide

/-! ## Claim C4 -/

theorem assocGet_assocSet (k n : String) (u : β) (m : List (String × β)) :
    assocGet n (assocSet k u m) = if k = n then some u else assocGet n m := by
  induction m with
  | nil =>
    by_cases hk : k = n <;> simp [assocSet, assocGet, hk]
  | cons hd t ih =>
    cases hd with
    | mk k' w =>
      by_cases hk' : k' = k
      · subst hk'
        by_cases hk : k' = n <;> simp [assocSet, assocGet, hk]
      · by_cases hn : k' = n
        · subst hn
          have hkn : ¬(k = k') := fun h => hk' h.symm
          simp [assocSet, hk', assocGet, hkn]
        · simp [assocSet, hk', assocGet, hn, ih]

/-- The secret loop never emits a decrypt call for a name already in the
resolved cache: cache entries only accumulate, and a cached name short-
circuits to config injection. -/
theorem lazyLoop_no_decrypt_of_cached (env : PMEnv) (n : String) :
    ∀ (pending : List SecretDecl) (cfg : Config) (st : PMState) (tr : List String),
      (assocGet n st.resolvedSecrets).isSome = true → n ∉ tr →
      (match PluginManager.lazyLoop env pending cfg st tr with
       | Except.error (_, tr') => n ∉ tr'
       | Except.ok (_, _, tr') => n ∉ tr') := by
  intro pending
  induction pending with
  | nil =>
    intro cfg st tr _ htr
    exact htr
  | cons sd rest ih =>
    intro cfg st tr hsome htr
    unfold PluginManager.lazyLoop
    cases hc : assocGet sd.name st.resolvedSecrets with
    | some v => exact ih _ st tr hsome htr
    | none =>
      have hne : ¬(sd.name = n) := by
        intro he
        rw [he] at hc
        rw [hc] at hsome
        simp at hsome
      cases hcred : env.credSecrets sd.name with
      | none => exact ih cfg st tr hsome htr
      | some cipher =>
        cases hdec : env.decryptRes sd.name with
        | error e =>
          simp only [List.mem_append, List.mem_singleton]
          intro hmem
          rcases hmem with hmem | hmem
          · exact htr hmem
          · exact hne hmem.symm
        | ok v =>
          refine ih _ _ _ ?_ ?_
          · rw [assocGet_assocSet]
            by_cases hx : sd.name = n
            · exact absurd hx hne
            · rw [if_neg hx]
              exact hsome
          · simp only [List.mem_append, List.mem_singleton]
            intro hmem
            rcases hmem with hmem | hmem
            · exact htr hmem
            · exact hne hmem.symm

theorem buildBaseCfg_congr (env1 env2 : PMEnv)
    (hhc : env1.hasClient = env2.hasClient)
    (hbc : env1.baseConfig = env2.baseConfig) (spec : PluginSpec) :
    PluginManager.buildBaseCfg env1 spec = PluginManager.buildBaseCfg env2 spec := by
  unfold PluginManager.buildBaseCfg
  rw [hhc, hbc]

theorem register_congr (env1 env2 : PMEnv) (huo : env1.useOk = env2.useOk)
    (st : PMState) (p : Plugin) (en : Bool) :
    PluginManager.register env1 st p en = PluginManager.register env2 st p en := by
  unfold PluginManager.register
  rw [huo]

/-- `reloadPluginWithSecret` only reads the import table, the client
injection data, the activation oracle and the spec list — in particular it
never consults the decrypt oracle. -/
theorem reloadLoop_congr (env1 env2 : PMEnv)
    (hmo : env1.moduleOf = env2.moduleOf) (hhc : env1.hasClient = env2.hasClient)
    (huo : env1.useOk = env2.useOk) (hbc : env1.baseConfig = env2.baseConfig)
    (pn sn : String) :
    ∀ (specs : List PluginSpec) (st : PMState),
      PluginManager.reloadLoop env1 pn sn specs st
        = PluginManager.reloadLoop env2 pn sn specs st := by
  intro specs
  induction specs with
  | nil => intro st; rfl
  | cons spec rest ih =>
    intro st
    simp only [reloadLoop_cons, hmo, buildBaseCfg_congr env1 env2 hhc hbc,
      register_congr env1 env2 huo, ih]

theorem reloadPluginWithSecret_congr (env1 env2 : PMEnv)
    (hmo : env1.moduleOf = env2.moduleOf) (hhc : env1.hasClient = env2.hasClient)
    (huo : env1.useOk = env2.useOk) (hbc : env1.baseConfig = env2.baseConfig)
    (hps : env1.pluginSpecs = env2.pluginSpecs)
    (st : PMState) (pn sn v : String) :
    PluginManager.reloadPluginWithSecret env1 st pn sn v
      = PluginManager.reloadPluginWithSecret env2 st pn sn v := by
  unfold PluginManager.reloadPluginWithSecret
  rw [hps]
  cases hsp : env2.pluginSpecs with
  | none => rfl
  | some specs => exact reloadLoop_congr env1 env2 hmo hhc huo hbc pn sn specs _

theorem loadSpec_congr (env1 env2 : PMEnv)
    (hmo : env1.moduleOf = env2.moduleOf) (hhc : env1.hasClient = env2.hasClient)
    (huo : env1.useOk = env2.useOk) (hbc : env1.baseConfig = env2.baseConfig)
    (hha : env1.hasAuth = env2.hasAuth) (hcs : env1.credSecrets = env2.credSecrets)
    (st : PMState) (spec : PluginSpec) :
    PluginManager.loadSpec env1 st spec = PluginManager.loadSpec env2 st spec := by
  unfold PluginManager.loadSpec
  simp only [hmo, hha, hcs, buildBaseCfg_congr env1 env2 hhc hbc,
    register_congr env1 env2 huo]

theorem loadAllSpecs_congr (env1 env2 : PMEnv)
    (hmo : env1.moduleOf = env2.moduleOf) (hhc : env1.hasClient = env2.hasClient)
    (huo : env1.useOk = env2.useOk) (hbc : env1.baseConfig = env2.baseConfig)
    (hha : env1.hasAuth = env2.hasAuth) (hcs : env1.credSecrets = env2.credSecrets) :
    ∀ (specs : List PluginSpec) (st : PMState),
      PluginManager.loadAllSpecs env1 specs st
        = PluginManager.loadAllSpecs env2 specs st := by
  intro specs
  induction specs with
  | nil => intro st; rfl
  | cons spec rest ih =>
    intro st
    simp only [PluginManager.loadAllSpecs,
      loadSpec_congr env1 env2 hmo hhc huo hbc hha hcs, ih]

/-- `loadAll` never consults the decrypt oracle either: it defers all
decryption to first tool use. -/
theorem loadAll_congr (env1 env2 : PMEnv)
    (hmo : env1.moduleOf = env2.moduleOf) (hhc : env1.hasClient = env2.hasClient)
    (huo : env1.useOk = env2.useOk) (hbc : env1.baseConfig = env2.baseConfig)
    (hha : env1.hasAuth = env2.hasAuth) (hcs : env1.credSecrets = env2.credSecrets)
    (hgp : env1.godPlugin = env2.godPlugin)
    (hcu : env1.customStored = env2.customStored) (st : PMState) :
    PluginManager.loadAll env1 st = PluginManager.loadAll env2 st := by
  unfold PluginManager.loadAll
  simp only [loadAllSpecs_congr env1 env2 hmo hhc huo hbc hha hcs, hgp, hcu,
    register_congr env1 env2 huo]

theorem lazyResolveSecrets_run (env : PMEnv) (st : PMState) (pn : String)
    (spec : PluginSpec) (pending : List SecretDecl)
    (hha : env.hasAuth = true) (hco : env.cryptoOk = true) :
    PluginManager.lazyResolveSecrets env st pn spec pending
      = match PluginManager.lazyLoop env pending
            (PluginManager.buildBaseCfg env spec) st [] with
        | Except.error (st', tr) => ⟨false, st', tr, none⟩
        | Except.ok (cfg, st', tr) =>
          let st1 := PluginManager.unregister st' pn
          match env.moduleOf spec.mod with
          | none => ⟨false, st1, tr, none⟩
          | some m =>
            match m.factory with
            | none => ⟨false, st1, tr, none⟩
            | some f =>
              match f cfg with
              | Except.error _ => ⟨false, st1, tr, some cfg⟩
              | Except.ok p =>
                ⟨true, PluginManager.register env st1 p true, tr, some cfg⟩ := by
  unfold PluginManager.lazyResolveSecrets
  rw [hha, hco]
  simp

/-- Claim C4: once a plaintext for a secret name is cached, no subsequent
operation decrypts that name again.  (1) `_lazyResolveSecrets` never emits
a decrypt call for a cached name; (2) for a pending declaration of a
cached name, no decrypt happens and the cached value is injected at the
declaration's config path of the rebuilt configuration handed to the
factory; (3)/(4) `reloadPluginWithSecret` and `loadAll` are independent of
the decrypt oracle altogether — they contain no decrypt call. -/
theorem secret_cache_reuse
    (env : PMEnv) (st : PMState) (pn : String) (spec : PluginSpec)
    (n v : String) (h : assocGet n st.resolvedSecrets = some v) :
    (∀ pending, n ∉ (PluginManager.lazyResolveSecrets env st pn spec pending).decryptTrace)
    ∧ (∀ sd : SecretDecl, sd.name = n →
        env.hasAuth = true → env.cryptoOk = true →
        (PluginManager.lazyResolveSecrets env st pn spec [sd]).decryptTrace = []
        ∧ ∀ cfg, (PluginManager.lazyResolveSecrets env st pn spec [sd]).cfgUsed = some cfg →
            assocGet sd.configPath cfg = some (ConfigVal.str v))
    ∧ (∀ (d : String → Except Unit String) (st' : PMState) (pn' sn' v' : String),
        PluginManager.reloadPluginWithSecret { env with decryptRes := d } st' pn' sn' v'
          = PluginManager.reloadPluginWithSecret env st' pn' sn' v')
    ∧ (∀ (d : String → Except Unit String) (st' : PMState),
        PluginManager.loadAll { env with decryptRes := d } st'
          = PluginManager.loadAll env st') := by
  refine ⟨?_, ?_, ?_, ?_⟩
  · intro pending
    by_cases hha : env.hasAuth = true
    · by_cases hco : env.cryptoOk = true
      · rw [lazyResolveSecrets_run env st pn spec pending hha hco]
        have hmain := lazyLoop_no_decrypt_of_cached env n pending
          (PluginManager.buildBaseCfg env spec) st [] (by rw [h]; rfl)
          (List.not_mem_nil n)
        cases hll : PluginManager.lazyLoop env pending
            (PluginManager.buildBaseCfg env spec) st [] with
        | error pr =>
          rw [hll] at hmain
          cases pr with
          | mk st' tr => exact hmain
        | ok tri =>
          rw [hll] at hmain
          obtain ⟨cfg, st', tr⟩ := tri
          dsimp only at hmain ⊢
          cases hm : env.moduleOf spec.mod with
          | none => exact hmain
          | some m =>
            dsimp only
            cases hf : m.factory with
            | none => exact hmain
            | some f =>
              dsimp only
              cases hres : f cfg with
              | error e => exact hmain
              | ok p => exact hmain
      · have hco' : ¬env.cryptoOk = true := hco
        unfold PluginManager.lazyResolveSecrets
        simp [hha, hco']
    · unfold PluginManager.lazyResolveSecrets
      simp [hha]
  · intro sd hsdn hha hco
    rw [lazyResolveSecrets_run env st pn spec [sd] hha hco]
    have hloop : PluginManager.lazyLoop env [sd]
        (PluginManager.buildBaseCfg env spec) st []
        = Except.ok (PluginManager.setConfigPath
            (PluginManager.buildBaseCfg env spec) sd.configPath (ConfigVal.str v),
            st, []) := by
      unfold PluginManager.lazyLoop
      rw [hsdn, h]
      rfl
    rw [hloop]
    dsimp only
    cases hm : env.moduleOf spec.mod with
    | none =>
      exact ⟨rfl, fun cfg hcfg => by cases hcfg⟩
    | some m =>
      dsimp only
      cases hf : m.factory with
      | none => exact ⟨rfl, fun cfg hcfg => by cases hcfg⟩
      | some f =>
        dsimp only
        cases hres : f (PluginManager.setConfigPath
            (PluginManager.buildBaseCfg env spec) sd.configPath (ConfigVal.str v)) with
        | error e =>
          refine ⟨rfl, fun cfg hcfg => ?_⟩
          dsimp only at hcfg
          injection hcfg with hcfg'
          subst hcfg'
          exact assocGet_set_self _ _ _
        | ok p =>
          refine ⟨rfl, fun cfg hcfg => ?_⟩
          dsimp only at hcfg
          injection hcfg with hcfg'
          subst hcfg'
          exact assocGet_set_self _ _ _
  · intro d st' pn' sn' v'
    exact reloadPluginWithSecret_congr { env with decryptRes := d } env
      rfl rfl rfl rfl rfl st' pn' sn' v'
  · intro d st'
    exact loadAll_congr { env with decryptRes := d } env
      rfl rfl rfl rfl rfl rfl rfl rfl st'

/-- Sample environment for the C4 witness: auth and crypto available, and a
module whose factory succeeds. -/
def c4env : PMEnv :=
  ⟨fun _ => some ⟨[], some (fun _ => Except.ok ⟨"x", "1.0.0", some [], []⟩)⟩,
   false, fun _ => true, fun _ => [], true, fun _ => none,
   fun _ => Except.error (), true, none, none, []⟩

def c4st : PMState := ⟨[], [("k", "v")]⟩

theorem secret_cache_reuse_witness :
    (PluginManager.lazyResolveSecrets c4env c4st "p" ⟨"m", "f", "c"⟩
        [⟨"k", "api.key", "K"⟩]).decryptTrace = []
    ∧ assocGet "api.key"
        ((PluginManager.lazyResolveSecrets c4env c4st "p" ⟨"m", "f", "c"⟩
            [⟨"k", "api.key", "K"⟩]).cfgUsed.getD [])
        = some (ConfigVal.str "v")
    ∧ PluginManager.reloadPluginWithSecret
          { c4env with decryptRes := fun _ => Except.ok "zzz" } c4st "p" "k" "v"
        = PluginManager.reloadPluginWithSecret c4env c4st "p" "k" "v" := by
  have h := secret_cache_reuse c4env c4st "p" ⟨"m", "f", "c"⟩ "k" "v" rfl
  have h2 := h.2.1 ⟨"k", "api.key", "K"⟩ rfl rfl rfl
  exact ⟨h2.1, h2.2 _ rfl, h.2.2.1 _ c4st "p" "k" "v"⟩

/-! ## Claim C2 -/

theorem runLazyCalls_cons (env : PMEnv) (pn : String) (spec : PluginSpec)
    (pending : List SecretDecl) (oldExec : List (String × Nat))
    (flag : Bool) (st : PMState) (tool args : String)
    (rest : List (String × String)) :
    PluginManager.runLazyCalls env pn spec pending oldExec flag st
        ((tool, args) :: rest)
      = let r := PluginManager.lazyCall env pn spec pending
          (assocGet tool oldExec) tool args flag st
        let rec' := PluginManager.runLazyCalls env pn spec pending oldExec
          r.2.1 r.2.2.1 rest
        (r.1 :: rec'.1, rec'.2.1, rec'.2.2.1,
          (if r.2.2.2.2 then 1 else 0) + rec'.2.2.2) := rfl

theorem lazyCall_flag_true (env : PMEnv) (pn : String) (spec : PluginSpec)
    (pending : List SecretDecl) (oe : Option Nat) (tool args : String)
    (st : PMState) :
    PluginManager.lazyCall env pn spec pending oe tool args true st
      = (match oe with
         | some tok => (PluginManager.CallRes.original tok args, true, st, [], false)
         | none => (PluginManager.CallRes.undef, true, st, [], false)) := by
  unfold PluginManager.lazyCall
  simp

theorem lazyCall_flag_false_components (env : PMEnv) (pn : String)
    (spec : PluginSpec) (pending : List SecretDecl) (oe : Option Nat)
    (tool args : String) (st : PMState) :
    (PluginManager.lazyCall env pn spec pending oe tool args false st).2.1 = true
    ∧ (PluginManager.lazyCall env pn spec pending oe tool args false st).2.2.2.2
        = true := by
  unfold PluginManager.lazyCall
  rw [if_pos (by simp)]
  by_cases hok : (PluginManager.lazyResolveSecrets env st pn spec pending).ok = true
  · rw [if_pos hok]
    cases hge : assocGet pn
        (PluginManager.lazyResolveSecrets env st pn spec pending).st.plugins with
    | none => exact ⟨rfl, rfl⟩
    | some e =>
      dsimp only
      cases hex : assocGet tool e.plugin.executors with
      | none => exact ⟨rfl, rfl⟩
      | some tok => exact ⟨rfl, rfl⟩
  · rw [if_neg hok]
    exact ⟨rfl, rfl⟩

theorem runLazyCalls_length (env : PMEnv) (pn : String) (spec : PluginSpec)
    (pending : List SecretDecl) (oe : List (String × Nat)) :
    ∀ (calls : List (String × String)) (flag : Bool) (st : PMState),
      (PluginManager.runLazyCalls env pn spec pending oe flag st calls).1.length
        = calls.length := by
  intro calls
  induction calls with
  | nil => intro flag st; rfl
  | cons c rest ih =>
    intro flag st
    obtain ⟨tool, args⟩ := c
    rw [runLazyCalls_cons]
    dsimp only
    rw [List.length_cons, ih]
    simp

theorem runLazyCalls_true_count (env : PMEnv) (pn : String) (spec : PluginSpec)
    (pending : List SecretDecl) (oe : List (String × Nat)) :
    ∀ (calls : List (String × String)) (st : PMState),
      (PluginManager.runLazyCalls env pn spec pending oe true st calls).2.2.2
        = 0 := by
  intro calls
  induction calls with
  | nil => intro st; rfl
  | cons c rest ih =>
    intro st
    obtain ⟨tool, args⟩ := c
    rw [runLazyCalls_cons]
    dsimp only
    rw [lazyCall_flag_true]
    cases hoe : assocGet tool oe with
    | none =>
      dsimp only
      rw [ih]
      simp
    | some tok =>
      dsimp only
      rw [ih]
      simp

theorem runLazyCalls_false_count (env : PMEnv) (pn : String) (spec : PluginSpec)
    (pending : List SecretDecl) (oe : List (String × Nat)) (tool args : String)
    (rest : List (String × String)) (st : PMState) :
    (PluginManager.runLazyCalls env pn spec pending oe false st
        ((tool, args) :: rest)).2.2.2 = 1 := by
  rw [runLazyCalls_cons]
  dsimp only
  have L := lazyCall_flag_false_components env pn spec pending
    (assocGet tool oe) tool args st
  rw [L.1, L.2, runLazyCalls_true_count]
  simp

/-- Claim C2: under the cooperative event loop (the wrapper's flag check
and set happen with no `await` in between, so call prologues are atomic
and any interleaving of N concurrent calls is a sequence of the calls in
prologue order), every schedule of wrapped-executor calls has: all N calls
complete with a result; at most one call — exactly one when N ≥ 1 —
starts the decryption-and-reload procedure; and the triggering (first)
call, when resolution succeeds and the freshly registered instance has a
real executor for its tool, returns that executor applied to the call's
original arguments. -/
theorem lazy_secret_single_resolution
    (env : PMEnv) (pn : String) (spec : PluginSpec) (pending : List SecretDecl)
    (oldExec : List (String × Nat)) (st : PMState) :
    (∀ calls : List (String × String),
      (PluginManager.runLazyCalls env pn spec pending oldExec false st calls).1.length
        = calls.length)
    ∧ (∀ calls : List (String × String),
      (PluginManager.runLazyCalls env pn spec pending oldExec false st calls).2.2.2 ≤ 1)
    ∧ (∀ (tool args : String) (rest : List (String × String)),
      (PluginManager.runLazyCalls env pn spec pending oldExec false st
          ((tool, args) :: rest)).2.2.2 = 1)
    ∧ (∀ (tool args : String) (rest : List (String × String)) (e : Entry) (tok : Nat),
        (PluginManager.lazyResolveSecrets env st pn spec pending).ok = true →
        assocGet pn (PluginManager.lazyResolveSecrets env st pn spec pending).st.plugins
          = some e →
        assocGet tool e.plugin.executors = some tok →
        (PluginManager.runLazyCalls env pn spec pending oldExec false st
            ((tool, args) :: rest)).1.head?
          = some (PluginManager.CallRes.delegated tok args)) := by
  refine ⟨fun calls => runLazyCalls_length env pn spec pending oldExec calls false st, ?_, ?_, ?_⟩
  · intro calls
    cases calls with
    | nil => exact Nat.zero_le 1
    | cons c rest =>
      obtain ⟨tool, args⟩ := c
      rw [runLazyCalls_false_count]
  · intro tool args rest
    exact runLazyCalls_false_count env pn spec pending oldExec tool args rest st
  · intro tool args rest e tok hok hge hex
    rw [runLazyCalls_cons]
    dsimp only
    rw [List.head?_cons]
    have hcall : (PluginManager.lazyCall env pn spec pending
        (assocGet tool oldExec) tool args false st).1
        = PluginManager.CallRes.delegated tok args := by
      unfold PluginManager.lazyCall
      rw [if_pos (by simp), if_pos hok, hge]
      dsimp only
      rw [hex]
    rw [hcall]

/-- Sample environment for the C2 witness: resolution succeeds and the
fresh "bankr" instance carries executor token 7 for tool "t". -/
def c2env : PMEnv :=
  ⟨fun _ => some ⟨[], some (fun _ =>
      Except.ok ⟨"bankr", "1.0.0", some [], [("t", 7)]⟩)⟩,
   false, fun _ => true, fun _ => [], true, fun _ => none,
   fun _ => Except.error (), true, none, none, []⟩

/-- Claim C2 witness: three concurrent calls to tool "t" — all three
complete, resolution is started exactly once, and the first call
delegates its original arguments to the fresh executor. -/
theorem lazy_secret_single_resolution_witness :
    (PluginManager.runLazyCalls c2env "bankr" ⟨"m", "f", "c"⟩ [] [] false
        ⟨[], []⟩ [("t", "a1"), ("t", "a2"), ("t", "a3")]).1.length = 3
    ∧ (PluginManager.runLazyCalls c2env "bankr" ⟨"m", "f", "c"⟩ [] [] false
        ⟨[], []⟩ [("t", "a1"), ("t", "a2"), ("t", "a3")]).2.2.2 = 1
    ∧ (PluginManager.runLazyCalls c2env "bankr" ⟨"m", "f", "c"⟩ [] [] false
        ⟨[], []⟩ [("t", "a1"), ("t", "a2"), ("t", "a3")]).1.head?
      = some (PluginManager.CallRes.delegated 7 "a1") := by
  have h := lazy_secret_single_resolution c2env "bankr" ⟨"m", "f", "c"⟩ [] [] ⟨[], []⟩
  exact ⟨h.1 _, h.2.2.1 "t" "a1" _,
    h.2.2.2 "t" "a1" [("t", "a2"), ("t", "a3")]
      ⟨⟨"bankr", "1.0.0", some [], [("t", 7)]⟩, true, 0⟩ 7 rfl rfl rfl⟩
